import Mathlib

/-!
Verification of the chunked, memory-bounded data iteration subsystem of
nwb-conversion-tools (the `GenericDataChunkIterator` core and its
format-specific realizations).

The traversal engine and chunk/buffer planner live in
`nwb_conversion_tools/utils/genericdatachunkiterator.py`, which is imported by
`spikeinterfacerecordingdatachunkiterator.py` but is not present in the
source tree; those parts are modelled from the specification (each such
definition carries a doc comment starting with `Modelled from the spec:`).
The format-specific readers (`RecordingExtractorDataChunkIterator._get_data`,
`SpikeInterfaceRecordingDataChunkIterator._get_data`,
`MovieDataChunkIterator._get_data`) and `VideoCaptureContext` are embedded
from the source files present in the tree.
-/

namespace NwbChunk

/-- Modelled from the spec: number of buffer-grid cells along one axis of
extent `m` with buffer extent `b`, i.e. the length of `range(0, m, b)`:
the ceiling of `m / b`. -/
def numAxisTiles (m b : ℕ) : ℕ := (m + b - 1) / b

/-- Modelled from the spec: the per-axis sequence of `(start, stop)` ranges of
the buffer grid along an axis of extent `m` with buffer extent `b`; starts are
`0, b, 2b, …` below `m` and each stop is clamped to
`min(start + b, m)` ("the tile index is clamped at the trailing edge of each
axis"). -/
def axisTiles (m b : ℕ) : List (ℕ × ℕ) :=
  (List.range (numAxisTiles m b)).map fun k => (k * b, min (k * b + b) m)

/-- Modelled from the spec: the full row-major sequence of tiles over the
buffer grid (first axis slowest, last axis fastest), each tile an ordered list
of per-axis `(start, stop)` ranges. -/
def tileList : List ℕ → List ℕ → List (List (ℕ × ℕ))
  | m :: ms, b :: bs => (axisTiles m b).flatMap fun p => (tileList ms bs).map (p :: ·)
  | _, _ => [[]]

/-- Membership of an integer coordinate vector in one tile: componentwise
`start ≤ x < stop`, with matching rank. -/
def inTile : List ℕ → List (ℕ × ℕ) → Bool
  | [], [] => true
  | x :: xs, p :: ps => decide (p.1 ≤ x) && decide (x < p.2) && inTile xs ps
  | _, _ => false

/-- Membership of an integer coordinate vector in the full coordinate grid
`product of range(0, maxshape[i])`, with matching rank. -/
def inGrid : List ℕ → List ℕ → Bool
  | [], [] => true
  | x :: xs, m :: ms => decide (x < m) && inGrid xs ms
  | _, _ => false

example : tileList [3, 2] [2, 2] = [[(0, 2), (0, 2)], [(2, 3), (0, 2)]] := by decide

example : inTile [2, 1] [(2, 3), (0, 2)] = true := by decide

theorem mem_axisTiles {m b : ℕ} {p : ℕ × ℕ} :
    p ∈ axisTiles m b ↔ ∃ k < numAxisTiles m b, p = (k * b, min (k * b + b) m) := by
  simp only [axisTiles, List.mem_map, List.mem_range]
  constructor
  · rintro ⟨k, hk, rfl⟩; exact ⟨k, hk, rfl⟩
  · rintro ⟨k, hk, rfl⟩; exact ⟨k, hk, rfl⟩

theorem axisTiles_stop_le {m b : ℕ} {p : ℕ × ℕ} (hp : p ∈ axisTiles m b) : p.2 ≤ m := by
  rw [mem_axisTiles] at hp
  obtain ⟨k, -, rfl⟩ := hp
  exact Nat.min_le_right _ _

theorem axisTiles_covers {m b x : ℕ} (hb : 1 ≤ b) (hx : x < m) :
    ∃ p ∈ axisTiles m b, p.1 ≤ x ∧ x < p.2 := by
  have hb0 : 0 < b := hb
  have hm : 1 ≤ m := Nat.lt_of_le_of_lt (Nat.zero_le x) hx
  refine ⟨(x / b * b, min (x / b * b + b) m), ?_, ?_, ?_⟩
  · rw [mem_axisTiles]
    refine ⟨x / b, ?_, rfl⟩
    have h1 : m + b - 1 = (m - 1) + b := by omega
    have h2 : numAxisTiles m b = (m - 1) / b + 1 := by
      rw [numAxisTiles, h1, Nat.add_div_right _ hb0]
    rw [h2]
    have h3 : x / b ≤ (m - 1) / b := Nat.div_le_div_right (by omega)
    omega
  · exact Nat.div_mul_le_self x b
  · refine lt_min ?_ hx
    have h4 : x / b * b + x % b = x := Nat.div_add_mod' x b
    have h5 := Nat.mod_lt x hb0
    omega

theorem axisTiles_unique {m b x : ℕ} {p q : ℕ × ℕ}
    (hp : p ∈ axisTiles m b) (hq : q ∈ axisTiles m b)
    (hpx : p.1 ≤ x ∧ x < p.2) (hqx : q.1 ≤ x ∧ x < q.2) : p = q := by
  rw [mem_axisTiles] at hp hq
  obtain ⟨k, -, rfl⟩ := hp
  obtain ⟨k', -, rfl⟩ := hq
  have hk : x / b = k :=
    Nat.div_eq_of_lt_le hpx.1 (by have := hpx.2; rw [Nat.succ_mul]; omega)
  have hk' : x / b = k' :=
    Nat.div_eq_of_lt_le hqx.1 (by have := hqx.2; rw [Nat.succ_mul]; omega)
  subst hk'
  rw [hk]

theorem axisTiles_pairwise_fst (m b : ℕ) (hb : 1 ≤ b) :
    (axisTiles m b).Pairwise (fun p q => p.1 < q.1) := by
  rw [axisTiles, List.pairwise_map]
  exact (List.pairwise_lt_range _).imp fun h => (Nat.mul_lt_mul_right hb).mpr h

theorem mem_tileList_cons {m b : ℕ} {ms bs : List ℕ} {t : List (ℕ × ℕ)} :
    t ∈ tileList (m :: ms) (b :: bs) ↔
      ∃ p ∈ axisTiles m b, ∃ r ∈ tileList ms bs, t = p :: r := by
  simp only [tileList, List.mem_flatMap, List.mem_map]
  constructor
  · rintro ⟨p, hp, r, hr, rfl⟩; exact ⟨p, hp, r, hr, rfl⟩
  · rintro ⟨p, hp, r, hr, rfl⟩; exact ⟨p, hp, r, hr, rfl⟩

theorem tileList_covers (ms : List ℕ) :
    ∀ (bs : List ℕ), ms.length = bs.length → (∀ b ∈ bs, 1 ≤ b) →
      ∀ x : List ℕ, ((∃ t ∈ tileList ms bs, inTile x t = true) ↔ inGrid x ms = true) := by
  induction ms with
  | nil =>
    intro bs hlen _ x
    cases bs with
    | nil =>
      cases x with
      | nil => simp [tileList, inTile, inGrid]
      | cons x xs => simp [tileList, inTile, inGrid]
    | cons b bs => simp at hlen
  | cons m ms ih =>
    intro bs hlen hb x
    cases bs with
    | nil => simp at hlen
    | cons b bs =>
      have IH := ih bs (by simpa using hlen) (fun c hc => hb c (List.mem_cons_of_mem _ hc))
      cases x with
      | nil =>
        constructor
        · rintro ⟨t, ht, hin⟩
          rw [mem_tileList_cons] at ht
          obtain ⟨p, -, r, -, rfl⟩ := ht
          simp [inTile] at hin
        · intro h; simp [inGrid] at h
      | cons x0 xs =>
        constructor
        · rintro ⟨t, ht, hin⟩
          rw [mem_tileList_cons] at ht
          obtain ⟨p, hp, r, hr, rfl⟩ := ht
          simp only [inTile, Bool.and_eq_true, decide_eq_true_eq] at hin
          obtain ⟨⟨h1, h2⟩, h3⟩ := hin
          have hx0 : x0 < m := lt_of_lt_of_le h2 (axisTiles_stop_le hp)
          have hxs : inGrid xs ms = true := (IH xs).mp ⟨r, hr, h3⟩
          simp [inGrid, hx0, hxs]
        · intro hg
          simp only [inGrid, Bool.and_eq_true, decide_eq_true_eq] at hg
          obtain ⟨hx0, hxs⟩ := hg
          obtain ⟨p, hp, hp1, hp2⟩ := axisTiles_covers (hb b (List.mem_cons_self _ _)) hx0
          obtain ⟨r, hr, hrin⟩ := (IH xs).mpr hxs
          exact ⟨p :: r, mem_tileList_cons.mpr ⟨p, hp, r, hr, rfl⟩,
            by simp [inTile, hp1, hp2, hrin]⟩

theorem tileList_unique (ms : List ℕ) :
    ∀ (bs : List ℕ) (x : List ℕ) (t₁ t₂ : List (ℕ × ℕ)),
      t₁ ∈ tileList ms bs → t₂ ∈ tileList ms bs →
      inTile x t₁ = true → inTile x t₂ = true → t₁ = t₂ := by
  induction ms with
  | nil =>
    intro bs x t₁ t₂ h₁ h₂ _ _
    cases bs <;> simp [tileList] at h₁ h₂ <;> rw [h₁, h₂]
  | cons m ms ih =>
    intro bs x t₁ t₂ h₁ h₂ hx₁ hx₂
    cases bs with
    | nil => simp [tileList] at h₁ h₂; rw [h₁, h₂]
    | cons b bs =>
      rw [mem_tileList_cons] at h₁ h₂
      obtain ⟨p₁, hp₁, r₁, hr₁, rfl⟩ := h₁
      obtain ⟨p₂, hp₂, r₂, hr₂, rfl⟩ := h₂
      cases x with
      | nil => simp [inTile] at hx₁
      | cons x0 xs =>
        simp only [inTile, Bool.and_eq_true, decide_eq_true_eq] at hx₁ hx₂
        obtain ⟨⟨ha₁, hb₁⟩, hc₁⟩ := hx₁
        obtain ⟨⟨ha₂, hb₂⟩, hc₂⟩ := hx₂
        have hpeq : p₁ = p₂ := axisTiles_unique hp₁ hp₂ ⟨ha₁, hb₁⟩ ⟨ha₂, hb₂⟩
        subst hpeq
        rw [ih bs xs r₁ r₂ hr₁ hr₂ hc₁ hc₂]

theorem tileList_pairwise (ms : List ℕ) :
    ∀ (bs : List ℕ), (∀ b ∈ bs, 1 ≤ b) →
      (tileList ms bs).Pairwise
        (fun t₁ t₂ => List.Lex (· < ·) (t₁.map Prod.fst) (t₂.map Prod.fst)) := by
  induction ms with
  | nil => intro bs _; cases bs <;> simp [tileList]
  | cons m ms ih =>
    intro bs hb
    cases bs with
    | nil => simp [tileList]
    | cons b bs =>
      rw [tileList, List.pairwise_flatMap]
      constructor
      · intro p _
        rw [List.pairwise_map]
        refine (ih bs (fun c hc => hb c (List.mem_cons_of_mem _ hc))).imp ?_
        intro t₁ t₂ hlex
        exact List.Lex.cons hlex
      · refine (axisTiles_pairwise_fst m b (hb b (List.mem_cons_self _ _))).imp ?_
        intro p q hpq x hx y hy
        rw [List.mem_map] at hx hy
        obtain ⟨r₁, -, rfl⟩ := hx
        obtain ⟨r₂, -, rfl⟩ := hy
        exact List.Lex.rel hpq

/-- Modelled from the spec: the doubling loop for one axis of the auto chunk
shape. Doubles the extent `e` while the doubled extent keeps the total byte
count within `budget` and the current extent is still below the axis extent
`maxLen`; `rest` is the product of the other axes' current extents and `item`
the element byte size. (The spec states the algorithm together with the
invariant that the result respects the byte budget except in the all-ones
edge case, so the doubling guard checks the byte bound on the doubled
extent.) -/
def growAxis (budget : ℚ) (item rest maxLen : ℕ) (e : ℕ) : ℕ :=
  if h : 0 < e ∧ e < maxLen ∧ ((2 * e * rest * item : ℕ) : ℚ) ≤ budget then
    growAxis budget item rest maxLen (2 * e)
  else e
termination_by maxLen - e
decreasing_by
  obtain ⟨h1, h2, -⟩ := h
  omega

theorem growAxis_budget (budget : ℚ) (item rest maxLen : ℕ) :
    ∀ e, ((e * rest * item : ℕ) : ℚ) ≤ budget →
      (((growAxis budget item rest maxLen e) * rest * item : ℕ) : ℚ) ≤ budget := by
  intro e
  induction e using growAxis.induct budget item rest maxLen with
  | case1 e h ih =>
    intro _
    rw [growAxis, dif_pos h]
    exact ih h.2.2
  | case2 e h =>
    intro hle
    rw [growAxis, dif_neg h]
    exact hle

theorem growAxis_pos (budget : ℚ) (item rest maxLen : ℕ) :
    ∀ e, 1 ≤ e → 1 ≤ growAxis budget item rest maxLen e := by
  intro e
  induction e using growAxis.induct budget item rest maxLen with
  | case1 e h ih => intro _; rw [growAxis, dif_pos h]; exact ih (by omega)
  | case2 e h => intro he; rw [growAxis, dif_neg h]; exact he

/-- Modelled from the spec: auto chunk shape ("start from a shape of
all-ones; greedily scale up axes, trailing axis first, doubling each axis's
extent while the byte bound holds and the extent is below `maxshape[axis]`;
clamp every axis to `maxshape[axis]`"). Processes the trailing axes first
(recursive call) and returns the shape together with its running product. -/
def chunkAxes (budget : ℚ) (item : ℕ) : List ℕ → List ℕ × ℕ
  | [] => ([], 1)
  | m :: ms =>
    let r := chunkAxes budget item ms
    let e := min (growAxis budget item r.2 m 1) m
    (e :: r.1, e * r.2)

/-- Modelled from the spec: the auto-computed chunk shape for a byte budget
`budget = chunk_mb * 2^20`. -/
def chunkShapeAuto (budget : ℚ) (item : ℕ) (ms : List ℕ) : List ℕ :=
  (chunkAxes budget item ms).1

theorem chunkAxes_spec (budget : ℚ) (item : ℕ) (hitem : 1 ≤ item) :
    ∀ ms : List ℕ, (∀ m ∈ ms, 1 ≤ m) →
      (1 ≤ (chunkAxes budget item ms).2) ∧
      ((chunkAxes budget item ms).2 = ((chunkAxes budget item ms).1).prod) ∧
      List.Forall₂ (fun c m => 1 ≤ c ∧ c ≤ m) (chunkAxes budget item ms).1 ms ∧
      ((((chunkAxes budget item ms).2 * item : ℕ) : ℚ) ≤ budget ∨
        (chunkAxes budget item ms).1 = List.replicate ms.length 1) ∧
      (budget < (item : ℚ) → (chunkAxes budget item ms).1 = List.replicate ms.length 1) := by
  intro ms
  induction ms with
  | nil =>
    intro _
    refine ⟨le_refl 1, rfl, List.Forall₂.nil, Or.inr rfl, fun _ => rfl⟩
  | cons m ms ih =>
    intro hms
    obtain ⟨ihpos, ihprod, ihfa, ihbud, ihones⟩ :=
      ih (fun c hc => hms c (List.mem_cons_of_mem _ hc))
    have hm : 1 ≤ m := hms m (List.mem_cons_self _ _)
    set r := chunkAxes budget item ms with hr
    set e0 := growAxis budget item r.2 m 1 with he0
    have he0pos : 1 ≤ e0 := growAxis_pos budget item r.2 m 1 (le_refl 1)
    have hepos : 1 ≤ min e0 m := le_min he0pos hm
    have hprodrec : (chunkAxes budget item (m :: ms)).2 = min e0 m * r.2 := rfl
    have hshaperec : (chunkAxes budget item (m :: ms)).1 = min e0 m :: r.1 := rfl
    by_cases hcase : ((r.2 * item : ℕ) : ℚ) ≤ budget
    · -- byte budget still satisfiable: the grown head extent keeps it satisfied
      have h1 : ((e0 * r.2 * item : ℕ) : ℚ) ≤ budget := by
        refine growAxis_budget budget item r.2 m 1 ?_
        simpa using hcase
      have h2 : ((min e0 m * r.2 * item : ℕ) : ℚ) ≤ budget := by
        refine le_trans ?_ h1
        exact_mod_cast Nat.mul_le_mul_right item
          (Nat.mul_le_mul_right r.2 (Nat.min_le_left e0 m))
      refine ⟨?_, ?_, ?_, ?_, ?_⟩
      · rw [hprodrec]; exact Nat.one_le_iff_ne_zero.mpr (by positivity)
      · rw [hprodrec, hshaperec, List.prod_cons, ihprod]
      · rw [hshaperec]
        exact List.Forall₂.cons ⟨hepos, Nat.min_le_right e0 m⟩ ihfa
      · left; rw [hprodrec]; exact h2
      · intro habs
        exfalso
        have : ((item : ℕ) : ℚ) ≤ ((r.2 * item : ℕ) : ℚ) :=
          Nat.cast_le.mpr (Nat.le_mul_of_pos_left item ihpos)
        exact absurd (le_trans this hcase) (not_le.mpr habs)
    · -- even the all-ones trailing product exceeds the budget: no growth
      have hrep : r.1 = List.replicate ms.length 1 := ihbud.resolve_left hcase
      have hr2 : r.2 = 1 := by
        rw [ihprod, hrep, List.prod_replicate, one_pow]
      have he0one : e0 = 1 := by
        rw [he0, growAxis, dif_neg]
        rintro ⟨-, -, h3⟩
        refine hcase (le_trans ?_ h3)
        refine Nat.cast_le.mpr ?_
        rw [hr2]
        omega
      have hmin1 : min e0 m = 1 := by rw [he0one]; omega
      refine ⟨?_, ?_, ?_, ?_, ?_⟩
      · rw [hprodrec, hmin1, hr2]
      · rw [hprodrec, hshaperec, List.prod_cons, ihprod]
      · rw [hshaperec]
        exact List.Forall₂.cons ⟨hepos, Nat.min_le_right e0 m⟩ ihfa
      · right
        rw [hshaperec, hmin1, hrep]
        rfl
      · intro _
        rw [hshaperec, hmin1, hrep]
        rfl

/-- Modelled from the spec: the growth loop for one axis of the auto buffer
shape. Starting from the chunk extent, adds one chunk-extent multiple `c` at a
time while the grown extent stays within the axis extent `maxLen` and the
total byte count `extent * rest * item` stays within `budget` ("grow that
axis by integer multiples of its chunk-shape extent, not exceeding
`maxshape[axis]`, until adding another multiple would exceed the byte
budget"). -/
def growBufAxis (budget : ℚ) (item rest maxLen c : ℕ) (e : ℕ) : ℕ :=
  if h : 0 < c ∧ e + c ≤ maxLen ∧ (((e + c) * rest * item : ℕ) : ℚ) ≤ budget then
    growBufAxis budget item rest maxLen c (e + c)
  else e
termination_by maxLen - e
decreasing_by
  obtain ⟨h1, h2, -⟩ := h
  omega

theorem growBufAxis_le (budget : ℚ) (item rest maxLen c : ℕ) :
    ∀ e, e ≤ maxLen → growBufAxis budget item rest maxLen c e ≤ maxLen := by
  intro e
  induction e using growBufAxis.induct budget item rest maxLen c with
  | case1 e h ih => intro _; rw [growBufAxis, dif_pos h]; exact ih h.2.1
  | case2 e h => intro he; rw [growBufAxis, dif_neg h]; exact he

theorem growBufAxis_mult (budget : ℚ) (item rest maxLen c : ℕ) :
    ∀ e, (∃ k, 1 ≤ k ∧ e = k * c) →
      ∃ k, 1 ≤ k ∧ growBufAxis budget item rest maxLen c e = k * c := by
  intro e
  induction e using growBufAxis.induct budget item rest maxLen c with
  | case1 e h ih =>
    rintro ⟨k, hk, rfl⟩
    rw [growBufAxis, dif_pos h]
    exact ih ⟨k + 1, by omega, by ring⟩
  | case2 e h =>
    rintro ⟨k, hk, rfl⟩
    rw [growBufAxis, dif_neg h]
    exact ⟨k, hk, rfl⟩

/-- Modelled from the spec: auto buffer shape ("start from the resolved chunk
shape; for each axis in order from slowest-varying to fastest-varying, grow
that axis by integer multiples of its chunk-shape extent ... then move to the
next axis"). The argument `pre` carries the product of the already-grown
leading axes' extents; the not-yet-grown trailing axes contribute their chunk
extents to the byte count. -/
def bufferAxes (budget : ℚ) (item : ℕ) : List ℕ → List ℕ → ℕ → List ℕ
  | m :: ms, c :: cs, pre =>
    let e := growBufAxis budget item (pre * cs.prod) m c c
    e :: bufferAxes budget item ms cs (pre * e)
  | _, _, _ => []

/-- Modelled from the spec: the auto-computed buffer shape for a byte budget
`budget = buffer_gb * 2^30`, given the resolved chunk shape `cs`. -/
def bufferShapeAuto (budget : ℚ) (item : ℕ) (ms cs : List ℕ) : List ℕ :=
  bufferAxes budget item ms cs 1

theorem bufferAxes_spec (budget : ℚ) (item : ℕ) :
    ∀ (ms cs : List ℕ) (pre : ℕ),
      List.Forall₂ (fun c m => 1 ≤ c ∧ c ≤ m) cs ms →
      List.Forall₂ (fun b p => b ≤ p.2 ∧ ∃ k, 1 ≤ k ∧ b = k * p.1)
        (bufferAxes budget item ms cs pre) (cs.zip ms) := by
  intro ms
  induction ms with
  | nil =>
    intro cs pre hfa
    cases hfa
    exact List.Forall₂.nil
  | cons m ms ih =>
    intro cs pre hfa
    cases hfa with
    | cons hcm hrest =>
      rename_i c cs
      refine List.Forall₂.cons ⟨?_, ?_⟩ (ih cs _ hrest)
      · exact growBufAxis_le budget item (pre * cs.prod) m c c hcm.2
      · exact growBufAxis_mult budget item (pre * cs.prod) m c c ⟨1, le_refl 1, (one_mul c).symm⟩

/-- Error taxonomy of the iteration core (spec section 7): invalid or
conflicting sizing parameters at construction, and block shape/dtype
violations detected during iteration, carrying the requested and returned
shapes. -/
inductive IterError where
  | configurationError : IterError
  | blockShapeError (requested returned : List ℕ) : IterError
deriving DecidableEq

/-- Modelled from the spec: the resolved state of a `ChunkedArraySource`:
the shape/dtype metadata cached at construction (the dtype represented by its
item byte size) plus the traversal cursor over the row-major buffer-grid tile
sequence. -/
structure IterState where
  maxshape : List ℕ
  dtype : ℕ
  chunkShape : List ℕ
  bufferShape : List ℕ
  cursor : ℕ
deriving DecidableEq

/-- Validity of a manually supplied buffer shape (spec section 4.1): per axis
a positive multiple of the chunk shape or exactly the axis extent. -/
def validBufferShape : List ℕ → List ℕ → List ℕ → Bool
  | [], [], [] => true
  | b :: bs, c :: cs, m :: ms =>
    (decide (b = m) || decide (c ∣ b ∧ 1 ≤ b)) && validBufferShape bs cs ms
  | _, _, _ => false

/-- Modelled from the spec: construction-time resolution and validation of
the sizing preferences (spec section 4.1). A byte budget together with an
explicit shape for the same grid is a `ConfigurationError`; an omitted
preference defaults to `chunk_mb = 1.0` and `buffer_gb = 1.0`; an empty rank
or a zero `maxshape` entry is a `ConfigurationError`; a manual chunk shape is
silently clamped to `maxshape`; a manual buffer shape must be valid per
`validBufferShape`. No data access happens here: the function has no fetch
callback, and errors are returned synchronously. -/
def construct (item : ℕ) (ms : List ℕ)
    (chunkMb : Option ℚ) (chunkShapeArg : Option (List ℕ))
    (bufferGb : Option ℚ) (bufferShapeArg : Option (List ℕ)) :
    Except IterError IterState :=
  match chunkMb, chunkShapeArg, bufferGb, bufferShapeArg with
  | some _, some _, _, _ => .error .configurationError
  | _, _, some _, some _ => .error .configurationError
  | _, _, _, _ =>
    if ms.isEmpty || ms.contains 0 then .error .configurationError
    else
      let cs := match chunkShapeArg with
        | some s => s.zipWith min ms
        | none => chunkShapeAuto ((chunkMb.getD 1) * 2 ^ 20) item ms
      match bufferShapeArg with
      | some s =>
        if validBufferShape s cs ms then .ok ⟨ms, item, cs, s, 0⟩
        else .error .configurationError
      | none =>
        .ok ⟨ms, item, cs, bufferShapeAuto ((bufferGb.getD 1) * 2 ^ 30) item ms cs, 0⟩

/-- Number of buffer-grid cells of an iterator state. -/
def numBuffers (it : IterState) : ℕ := (tileList it.maxshape it.bufferShape).length

/-- Modelled from the spec: one iteration request: yields the tile at the
cursor and advances the cursor, or signals end-of-sequence (`none`, not an
error) once all buffer-grid cells have been visited. -/
def nextSel (it : IterState) : Option (List (ℕ × ℕ)) × IterState :=
  match (tileList it.maxshape it.bufferShape)[it.cursor]? with
  | some t => (some t, { it with cursor := it.cursor + 1 })
  | none => (none, it)

/-- Driving the iterator for `k` requests, collecting the yielded tiles. -/
def runIter : ℕ → IterState → List (List (ℕ × ℕ)) × IterState
  | 0, it => ([], it)
  | k + 1, it =>
    match nextSel it with
    | (some t, it') =>
      let r := runIter k it'
      (t :: r.1, r.2)
    | (none, it') => ([], it')

/-- A data block as returned by `fetch_block`, modelled by the observables
the contract constrains: its shape and its dtype. -/
structure Block where
  shape : List ℕ
  dtype : ℕ
deriving DecidableEq

/-- Requested extents of a tile: `stop - start` per axis. -/
def tileShape (t : List (ℕ × ℕ)) : List ℕ := t.map fun p => p.2 - p.1

/-- Modelled from the spec: one iteration step including the `fetch_block`
call and the shape/dtype validation: a mismatching block surfaces as a
`BlockShapeError` carrying the requested and the returned shape, and the
block is not handed to the caller. -/
def fetchNext (fetch : List (ℕ × ℕ) → Block) (it : IterState) :
    Except IterError (Option (Block × List (ℕ × ℕ))) × IterState :=
  match nextSel it with
  | (some t, it') =>
    let blk := fetch t
    if blk.shape = tileShape t ∧ blk.dtype = it.dtype then (.ok (some (blk, t)), it')
    else (.error (.blockShapeError (tileShape t) blk.shape), it')
  | (none, it') => (.ok none, it')

/-- Extension points supplied by the format adapter (spec section 6). -/
structure SourceCallbacks where
  resolveDtype : Unit → ℕ
  resolveMaxshape : Unit → List ℕ

/-- Invocation tags of the extension points, recording the calls made during
construction. -/
inductive ResolveCall where
  | dtypeCall
  | maxshapeCall
deriving DecidableEq

/-- Modelled from the spec: construction resolving dtype and maxshape
through the two extension points; each is invoked once and the results are
cached in the returned state. The returned list records the extension-point
invocations construction performs. -/
def constructFromSource (src : SourceCallbacks)
    (chunkMb : Option ℚ) (chunkShapeArg : Option (List ℕ))
    (bufferGb : Option ℚ) (bufferShapeArg : Option (List ℕ)) :
    Except IterError IterState × List ResolveCall :=
  (construct (src.resolveDtype ()) (src.resolveMaxshape ())
      chunkMb chunkShapeArg bufferGb bufferShapeArg,
    [ResolveCall.dtypeCall, ResolveCall.maxshapeCall])

theorem nextSel_fields (it : IterState) :
    (nextSel it).2.maxshape = it.maxshape ∧ (nextSel it).2.dtype = it.dtype ∧
    (nextSel it).2.chunkShape = it.chunkShape ∧
    (nextSel it).2.bufferShape = it.bufferShape := by
  unfold nextSel
  cases h : (tileList it.maxshape it.bufferShape)[it.cursor]? <;> simp

theorem nextSel_cursor_mono (it : IterState) : it.cursor ≤ (nextSel it).2.cursor := by
  unfold nextSel
  cases h : (tileList it.maxshape it.bufferShape)[it.cursor]? <;> simp

theorem nextSel_exhausted (it : IterState) (h : numBuffers it ≤ it.cursor) :
    nextSel it = (none, it) := by
  unfold nextSel
  rw [List.getElem?_eq_none h]

theorem runIter_fields (k : ℕ) :
    ∀ it : IterState,
      (runIter k it).2.maxshape = it.maxshape ∧ (runIter k it).2.dtype = it.dtype ∧
      (runIter k it).2.chunkShape = it.chunkShape ∧
      (runIter k it).2.bufferShape = it.bufferShape := by
  induction k with
  | zero => intro it; exact ⟨rfl, rfl, rfl, rfl⟩
  | succ k ih =>
    intro it
    rw [runIter]
    rcases h : nextSel it with ⟨ot, it'⟩
    have hf := nextSel_fields it
    rw [h] at hf
    cases ot with
    | some t =>
      obtain ⟨h1, h2, h3, h4⟩ := ih it'
      exact ⟨h1.trans hf.1, h2.trans hf.2.1, h3.trans hf.2.2.1, h4.trans hf.2.2.2⟩
    | none => exact hf

theorem runIter_complete (ms cs bs : List ℕ) (d : ℕ) :
    ∀ (k c : ℕ), c ≤ (tileList ms bs).length → (tileList ms bs).length ≤ c + k →
      runIter k ⟨ms, d, cs, bs, c⟩ =
        ((tileList ms bs).drop c, ⟨ms, d, cs, bs, (tileList ms bs).length⟩) := by
  intro k
  induction k with
  | zero =>
    intro c hc1 hc2
    have : c = (tileList ms bs).length := le_antisymm hc1 (by omega)
    subst this
    simp [runIter]
  | succ k ih =>
    intro c hc1 hc2
    rw [runIter]
    by_cases hc : c < (tileList ms bs).length
    · have hsel : nextSel ⟨ms, d, cs, bs, c⟩ =
          (some (tileList ms bs)[c], ⟨ms, d, cs, bs, c + 1⟩) := by
        unfold nextSel
        rw [List.getElem?_eq_getElem hc]
      rw [hsel]
      dsimp only
      rw [ih (c + 1) hc (by omega)]
      rw [← List.drop_eq_getElem_cons hc]
    · have hce : c = (tileList ms bs).length := le_antisymm hc1 (by omega)
      have hsel : nextSel ⟨ms, d, cs, bs, c⟩ = (none, ⟨ms, d, cs, bs, c⟩) :=
        nextSel_exhausted _ (by simpa [numBuffers] using le_of_eq hce.symm)
      rw [hsel, hce]
      simp

/-- Length of a python slice `lst[start:stop]` of a sequence of length `len`
(non-negative bounds, step 1). -/
def sliceLen (startI stopI len : ℕ) : ℕ := min stopI len - min startI len

/-- Shape of a numpy 2-D transpose (`.T`): the axes reversed. -/
def transposeShape (s : List ℕ) : List ℕ := s.reverse

/-- Shape of the traces matrix returned by the legacy spikeextractors
`RecordingExtractor.get_traces(channel_ids, start_frame, end_frame)` call per
that library's contract (external collaborator, modelled by its contract):
one row per requested channel id, one column per frame of
`[start_frame, end_frame)`. -/
def legacyTracesShape (nChan startF endF : ℕ) : List ℕ := [nChan, endF - startF]

/-- Shape of the block returned by
`RecordingExtractorDataChunkIterator._get_data` (source
`utils/recordingextractordatachunkiterator.py`, lines 61-67): the
`(channels, frames)` traces matrix of the channel ids selected by
`selection[1]`, transposed. -/
def legacyGetDataShape (numChannels : ℕ) (sel : List (ℕ × ℕ)) : List ℕ :=
  match sel with
  | [s0, s1] => transposeShape (legacyTracesShape (sliceLen s1.1 s1.2 numChannels) s0.1 s0.2)
  | _ => []

/-- Shape of the traces matrix returned by the new spikeinterface
`BaseRecording.get_traces` call per that library's contract (external
collaborator, modelled by its contract): `(samples, channels)`. -/
def siTracesShape (startF endF nChan : ℕ) : List ℕ := [endF - startF, nChan]

/-- Shape of the block returned by
`SpikeInterfaceRecordingDataChunkIterator._get_data` (source
`utils/spikeinterfacerecordingdatachunkiterator.py`, lines 56-63): the
`(samples, channels)` traces matrix, used untransposed. -/
def siGetDataShape (numChannels : ℕ) (sel : List (ℕ × ℕ)) : List ℕ :=
  match sel with
  | [s0, s1] => siTracesShape s0.1 s0.2 (sliceLen s1.1 s1.2 numChannels)
  | _ => []

/-- Shape of `np.concatenate(blocks, axis=0)` for `n` blocks of one common
shape: the leading extent is multiplied by `n`. -/
def concatShape (n : ℕ) : List ℕ → List ℕ
  | e :: rest => (n * e) :: rest
  | [] => []

/-- Shape of `frame[selection[1:]]`: each axis of the frame shape sliced by
the corresponding trailing slice. -/
def frameSliceShape (frameShape : List ℕ) (sel : List (ℕ × ℕ)) : List ℕ :=
  List.zipWith (fun fs p => sliceLen p.1 p.2 fs) frameShape sel

/-- Shape of the block returned by `MovieDataChunkIterator._get_data`
(source `datainterfaces/behavior/movie/movie_utils.py`, lines 175-186). With
the default chunk shape (`chunk_shape` omitted at construction) the method
returns the single next sequential frame expanded by `np.newaxis`, whatever
the selection; otherwise it collects `frame[selection[1:]]` for each frame
index of `selection[0]` and concatenates them along axis 0. -/
def movieGetDataShape (defaultChunkShape : Bool) (frameShape : List ℕ)
    (sel : List (ℕ × ℕ)) : List ℕ :=
  if defaultChunkShape then 1 :: frameShape
  else
    match sel with
    | s0 :: rest => concatShape (s0.2 - s0.1) (frameSliceShape frameShape rest)
    | [] => []

theorem legacyGetData_matches (numChannels : ℕ) (s0 s1 : ℕ × ℕ)
    (h1 : s1.1 ≤ s1.2) (h2 : s1.2 ≤ numChannels) :
    legacyGetDataShape numChannels [s0, s1] = tileShape [s0, s1] := by
  have ha : min s1.2 numChannels = s1.2 := min_eq_left h2
  have hb : min s1.1 numChannels = s1.1 := min_eq_left (le_trans h1 h2)
  simp [legacyGetDataShape, transposeShape, legacyTracesShape, sliceLen, tileShape, ha, hb]

theorem siGetData_matches (numChannels : ℕ) (s0 s1 : ℕ × ℕ)
    (h1 : s1.1 ≤ s1.2) (h2 : s1.2 ≤ numChannels) :
    siGetDataShape numChannels [s0, s1] = tileShape [s0, s1] := by
  have ha : min s1.2 numChannels = s1.2 := min_eq_left h2
  have hb : min s1.1 numChannels = s1.1 := min_eq_left (le_trans h1 h2)
  simp [siGetDataShape, siTracesShape, sliceLen, tileShape, ha, hb]

/-- Errors surfaced by `VideoCaptureContext` operations: a failed `assert`. -/
inductive MovieContextError where
  | assertionError
deriving DecidableEq

/-- State of a `VideoCaptureContext` (source
`datainterfaces/behavior/movie/movie_utils.py`): the underlying
`cv2.VideoCapture` is modelled by its open flag, its frame-position cursor
(`CAP_PROP_POS_FRAMES`) and the decoded frame contents (frames abstracted to
naturals); `currentFrame` is the python `_current_frame` attribute and
`frameCountCache` the `_frame_count` memo. -/
structure VideoCaptureContext where
  opened : Bool
  pos : ℕ
  frames : List ℕ
  currentFrame : ℕ
  frameCountCache : Option ℕ
deriving DecidableEq

/-- Model of `cv2.VideoCapture.read`: at a valid position of an open capture
it returns the frame there and advances the position by one; otherwise it
reports failure and leaves the state unchanged. -/
def vcRead (st : VideoCaptureContext) : (Bool × Option ℕ) × VideoCaptureContext :=
  if h : st.opened = true ∧ st.pos < st.frames.length then
    ((true, some (st.frames.get ⟨st.pos, h.2⟩)), { st with pos := st.pos + 1 })
  else ((false, none), st)

/-- Model of the `current_frame` setter (movie_utils.py lines 88-96): asserts
the capture is open, seeks the underlying capture via
`cv2.VideoCapture.set(CAP_PROP_POS_FRAMES, n)` (which succeeds on an open
capture) and records the new `_current_frame`. -/
def setCurrentFrame (n : ℕ) (st : VideoCaptureContext) :
    Except MovieContextError VideoCaptureContext :=
  if st.opened then .ok { st with pos := n, currentFrame := n }
  else .error .assertionError

/-- Model of the `frame_count` property (movie_utils.py lines 55-59) backed
by `_movie_frame_count` (lines 72-76): returns the memoized count, or reads
it from the open capture and caches it. -/
def getFrameCount (st : VideoCaptureContext) :
    Except MovieContextError (ℕ × VideoCaptureContext) :=
  match st.frameCountCache with
  | some v => .ok (v, st)
  | none =>
    if st.opened then
      .ok (st.frames.length, { st with frameCountCache := some st.frames.length })
    else .error .assertionError

/-- Model of `get_movie_frame` (movie_utils.py lines 98-106): asserts the
capture is open and the frame number below the frame count, remembers
`_current_frame`, seeks to the requested frame, reads it, seeks back to the
remembered frame and returns the read frame. -/
def getMovieFrame (n : ℕ) (st : VideoCaptureContext) :
    Except MovieContextError (Option ℕ × VideoCaptureContext) :=
  if st.opened = false then .error .assertionError
  else
    match getFrameCount st with
    | .error e => .error e
    | .ok r =>
      if r.1 ≤ n then .error .assertionError
      else
        match setCurrentFrame n r.2 with
        | .error e => .error e
        | .ok st2 =>
          let r2 := vcRead st2
          match setCurrentFrame r.2.currentFrame r2.2 with
          | .error e => .error e
          | .ok st4 => .ok (r2.1.2, st4)

/-- C1: for every valid configuration (maxshape entries ≥ 1, itemsize ≥ 1,
resolved buffer shape with entries ≥ 1 and matching rank), the tile sequence
yielded by exhausting the iterator covers exactly the coordinate grid
`product of range(0, maxshape[i])` (a coordinate lies in some tile iff it
lies in the grid), no coordinate lies in two distinct tiles, and the tiles
are produced in row-major order over the buffer grid: the per-axis start
offsets are strictly lexicographically increasing with the last axis varying
fastest. -/
theorem claim_c1_traversal (ms bs : List ℕ) (item : ℕ) (hitem : 1 ≤ item)
    (hlen : ms.length = bs.length) (hm : ∀ m ∈ ms, 1 ≤ m) (hb : ∀ b ∈ bs, 1 ≤ b) :
    (∀ x : List ℕ, (∃ t ∈ tileList ms bs, inTile x t = true) ↔ inGrid x ms = true) ∧
    (∀ (x : List ℕ) (t₁ t₂ : List (ℕ × ℕ)), t₁ ∈ tileList ms bs → t₂ ∈ tileList ms bs →
      inTile x t₁ = true → inTile x t₂ = true → t₁ = t₂) ∧
    (tileList ms bs).Pairwise
      (fun t₁ t₂ => List.Lex (· < ·) (t₁.map Prod.fst) (t₂.map Prod.fst)) :=
  ⟨tileList_covers ms bs hlen hb, fun x t₁ t₂ => tileList_unique ms bs x t₁ t₂,
    tileList_pairwise ms bs hb⟩

theorem claim_c1_traversal_witness :
    ((∃ t ∈ tileList [3, 2] [2, 2], inTile [2, 1] t = true) ↔
      inGrid [2, 1] [3, 2] = true) ∧
    (tileList [3, 2] [2, 2]).Pairwise
      (fun t₁ t₂ => List.Lex (· < ·) (t₁.map Prod.fst) (t₂.map Prod.fst)) :=
  ⟨(claim_c1_traversal [3, 2] [2, 2] 1 (by decide) (by decide) (by decide) (by decide)).1
      [2, 1],
   (claim_c1_traversal [3, 2] [2, 2] 1 (by decide) (by decide) (by decide) (by decide)).2.2⟩

/-- C2: for every valid input (maxshape entries ≥ 1, itemsize ≥ 1, positive
byte budget `chunk_mb * 2^20`), the auto chunk shape computed by the
trailing-first doubling algorithm satisfies `1 ≤ chunk_shape[i] ≤ maxshape[i]`
on every axis, and `prod(chunk_shape) * itemsize ≤ budget` or the shape is
all-ones; in the edge case where even the all-ones shape exceeds the budget
the all-ones shape is still returned. Determinism holds because
`chunkShapeAuto` is a pure function of `(budget, itemsize, maxshape)`. -/
theorem claim_c2_chunk_shape (budget : ℚ) (item : ℕ) (ms : List ℕ)
    (hbud : 0 < budget) (hitem : 1 ≤ item) (hms : ∀ m ∈ ms, 1 ≤ m) :
    List.Forall₂ (fun c m => 1 ≤ c ∧ c ≤ m) (chunkShapeAuto budget item ms) ms ∧
    ((((chunkShapeAuto budget item ms).prod * item : ℕ) : ℚ) ≤ budget ∨
      chunkShapeAuto budget item ms = List.replicate ms.length 1) ∧
    (budget < (item : ℚ) → chunkShapeAuto budget item ms = List.replicate ms.length 1) := by
  obtain ⟨hpos, hprod, hfa, hbuds, hones⟩ := chunkAxes_spec budget item hitem ms hms
  refine ⟨hfa, ?_, hones⟩
  rw [chunkShapeAuto, ← hprod]
  exact hbuds

theorem claim_c2_chunk_shape_witness :
    List.Forall₂ (fun c m => 1 ≤ c ∧ c ≤ m) (chunkShapeAuto (2 ^ 20) 8 [10000, 4])
      [10000, 4] ∧
    ((((chunkShapeAuto (2 ^ 20) 8 [10000, 4]).prod * 8 : ℕ) : ℚ) ≤ 2 ^ 20 ∨
      chunkShapeAuto (2 ^ 20) 8 [10000, 4] = List.replicate 2 1) ∧
    ((2 ^ 20 : ℚ) < ((8 : ℕ) : ℚ) →
      chunkShapeAuto (2 ^ 20) 8 [10000, 4] = List.replicate 2 1) :=
  claim_c2_chunk_shape (2 ^ 20) 8 [10000, 4] (by norm_num) (by decide) (by decide)

/-- C3: for every valid configuration (resolved chunk shape with
`1 ≤ chunk_shape[i] ≤ maxshape[i]`), the auto buffer shape satisfies, on
every axis independently, `buffer_shape[i] ≤ maxshape[i]`, and
`buffer_shape[i] = maxshape[i]` or `buffer_shape[i]` is an exact positive
integer multiple of `chunk_shape[i]` (the algorithm in fact always yields a
positive multiple). -/
theorem claim_c3_buffer_shape (budget : ℚ) (item : ℕ) (ms cs : List ℕ)
    (hfa : List.Forall₂ (fun c m => 1 ≤ c ∧ c ≤ m) cs ms) :
    List.Forall₂
      (fun b p => b ≤ p.2 ∧ (b = p.2 ∨ ∃ k, 1 ≤ k ∧ b = k * p.1))
      (bufferShapeAuto budget item ms cs) (cs.zip ms) :=
  (bufferAxes_spec budget item ms cs 1 hfa).imp fun _ _ h => ⟨h.1, Or.inr h.2⟩

theorem claim_c3_buffer_shape_witness :
    List.Forall₂
      (fun b p => b ≤ p.2 ∧ (b = p.2 ∨ ∃ k, 1 ≤ k ∧ b = k * p.1))
      (bufferShapeAuto (2 ^ 30) 8 [10000, 4] [100, 4]) ([100, 4].zip [10000, 4]) :=
  claim_c3_buffer_shape (2 ^ 30) 8 [10000, 4] [100, 4]
    (List.Forall₂.cons ⟨by decide, by decide⟩
      (List.Forall₂.cons ⟨by decide, by decide⟩ List.Forall₂.nil))

/-- C4: the claim that every concrete `fetch_block` realization returns a
block whose shape matches `stop - start` per axis holds for the two
recording realizations (`legacyGetData_matches`, `siGetData_matches`) but
fails for `MovieDataChunkIterator._get_data` in both of its paths: with a
manual chunk shape the movie reader concatenates rank-3 frame slices along
axis 0 and returns shape `(n*h, w, c)` instead of `(n, h, w, c)`, and with
the default chunk shape it returns a single newaxis-expanded frame
`(1, h, w, c)` regardless of the requested frame range. Evaluated at a
480x640 RGB movie and full-frame selections over frames `[0, 2)`
(manual-chunk path) and `[0, 10)` (default-chunk path). -/
theorem claim_c4_movie_shape_mismatch :
    movieGetDataShape false [480, 640, 3] [(0, 2), (0, 480), (0, 640), (0, 3)]
        = [960, 640, 3] ∧
    tileShape [(0, 2), (0, 480), (0, 640), (0, 3)] = [2, 480, 640, 3] ∧
    movieGetDataShape true [480, 640, 3] [(0, 10), (0, 480), (0, 640), (0, 3)]
        = [1, 480, 640, 3] ∧
    tileShape [(0, 10), (0, 480), (0, 640), (0, 3)] = [10, 480, 640, 3] ∧
    ([960, 640, 3] : List ℕ) ≠ [2, 480, 640, 3] ∧
    ([1, 480, 640, 3] : List ℕ) ≠ [10, 480, 640, 3] := by
  exact ⟨by decide, by decide, by decide, by decide, by decide, by decide⟩

/-- C5: when the fetched block's shape or dtype does not match the requested
tile, the iteration step surfaces a `BlockShapeError` identifying the
requested and the returned shape, instead of handing the block to the
caller. -/
theorem claim_c5_block_shape_error (fetch : List (ℕ × ℕ) → Block) (it : IterState)
    (t : List (ℕ × ℕ))
    (ht : (tileList it.maxshape it.bufferShape)[it.cursor]? = some t)
    (hmism : (fetch t).shape ≠ tileShape t ∨ (fetch t).dtype ≠ it.dtype) :
    (fetchNext fetch it).1 =
      .error (.blockShapeError (tileShape t) (fetch t).shape) := by
  unfold fetchNext nextSel
  rw [ht]
  dsimp only
  rw [if_neg (by tauto)]

theorem claim_c5_block_shape_error_witness :
    (fetchNext (fun _ => Block.mk [1, 2] 0) ⟨[4, 2], 0, [2, 2], [2, 2], 0⟩).1 =
      .error (.blockShapeError [2, 2] [1, 2]) :=
  claim_c5_block_shape_error (fun _ => Block.mk [1, 2] 0) ⟨[4, 2], 0, [2, 2], [2, 2], 0⟩
    [(0, 2), (0, 2)] (by decide) (by decide)

/-- C6: supplying both a byte budget and an explicit shape for the same grid
(`chunk_mb` with `chunk_shape`, or `buffer_gb` with `buffer_shape`) makes
construction return `ConfigurationError` synchronously; `construct` takes no
fetch callback and performs no data access, so the failure cannot be
deferred to iteration time. -/
theorem claim_c6_conflicting_sizing (item : ℕ) (ms : List ℕ)
    (chunkMb : Option ℚ) (chunkShapeArg : Option (List ℕ))
    (bufferGb : Option ℚ) (bufferShapeArg : Option (List ℕ))
    (h : (chunkMb.isSome = true ∧ chunkShapeArg.isSome = true) ∨
      (bufferGb.isSome = true ∧ bufferShapeArg.isSome = true)) :
    construct item ms chunkMb chunkShapeArg bufferGb bufferShapeArg =
      .error .configurationError := by
  rcases h with ⟨h1, h2⟩ | ⟨h1, h2⟩
  · obtain ⟨a, rfl⟩ := Option.isSome_iff_exists.mp h1
    obtain ⟨b, rfl⟩ := Option.isSome_iff_exists.mp h2
    cases bufferGb <;> cases bufferShapeArg <;> rfl
  · obtain ⟨a, rfl⟩ := Option.isSome_iff_exists.mp h1
    obtain ⟨b, rfl⟩ := Option.isSome_iff_exists.mp h2
    cases chunkMb <;> cases chunkShapeArg <;> rfl

theorem claim_c6_conflicting_sizing_witness :
    construct 2 [10] (some 1) (some [5]) none none = .error .configurationError :=
  claim_c6_conflicting_sizing 2 [10] (some 1) (some [5]) none none
    (Or.inl ⟨rfl, rfl⟩)

/-- C7: omitted sizing preferences default to the byte budgets
`chunk_mb = 1.0` and `buffer_gb = 1.0`: construction with every sizing
argument omitted is the same function of `(itemsize, maxshape)` as
construction with `chunk_mb = 1.0` and `buffer_gb = 1.0`. -/
theorem claim_c7_defaults (item : ℕ) (ms : List ℕ) :
    construct item ms none none none none =
      construct item ms (some 1) none (some 1) none := rfl

/-- C8: the iterator follows CREATED → ITERATING → EXHAUSTED: a fresh
instance (cursor 0) driven for `numBuffers` requests yields exactly the full
finite tile sequence once and ends with its cursor at the end; any state
with the cursor at or past the end answers every further request with `none`
(end-of-sequence, not an error) and is left unchanged — no transition back
from EXHAUSTED — and the cursor never moves backwards, so a second full
traversal requires a new instance. -/
theorem claim_c8_state_machine (it : IterState) (hc : it.cursor = 0) :
    (runIter (numBuffers it) it).1 = tileList it.maxshape it.bufferShape ∧
    (runIter (numBuffers it) it).2.cursor = numBuffers it ∧
    (∀ s : IterState, numBuffers s ≤ s.cursor → nextSel s = (none, s)) ∧
    (∀ s : IterState, s.cursor ≤ (nextSel s).2.cursor) := by
  obtain ⟨ms, d, cs, bs, c⟩ := it
  simp only [IterState.cursor] at hc
  subst hc
  have h := runIter_complete ms cs bs d (tileList ms bs).length 0 (Nat.zero_le _)
    (by omega)
  refine ⟨?_, ?_, nextSel_exhausted, nextSel_cursor_mono⟩
  · show (runIter (tileList ms bs).length ⟨ms, d, cs, bs, 0⟩).1 = tileList ms bs
    rw [h]
    exact List.drop_zero _
  · show (runIter (tileList ms bs).length ⟨ms, d, cs, bs, 0⟩).2.cursor =
      (tileList ms bs).length
    rw [h]

theorem claim_c8_state_machine_witness :
    (runIter (numBuffers ⟨[3, 2], 1, [1, 1], [2, 2], 0⟩)
        (⟨[3, 2], 1, [1, 1], [2, 2], 0⟩ : IterState)).1 =
      tileList [3, 2] [2, 2] ∧
    (runIter (numBuffers ⟨[3, 2], 1, [1, 1], [2, 2], 0⟩)
        (⟨[3, 2], 1, [1, 1], [2, 2], 0⟩ : IterState)).2.cursor =
      numBuffers ⟨[3, 2], 1, [1, 1], [2, 2], 0⟩ ∧
    (∀ s : IterState, numBuffers s ≤ s.cursor → nextSel s = (none, s)) ∧
    (∀ s : IterState, s.cursor ≤ (nextSel s).2.cursor) :=
  claim_c8_state_machine ⟨[3, 2], 1, [1, 1], [2, 2], 0⟩ rfl

/-- C9: construction invokes each of the two extension points exactly once
(the invocation record of `constructFromSource` is one dtype call followed by
one maxshape call, nothing else) and caches their results in the state; the
four accessors (the `maxshape`, `dtype`, `chunkShape` and `bufferShape`
fields) are untouched by any number of iteration requests, so each returns
the same value before iteration starts as after full iteration. -/
theorem claim_c9_resolve_once_accessors (src : SourceCallbacks)
    (chunkMb : Option ℚ) (chunkShapeArg : Option (List ℕ))
    (bufferGb : Option ℚ) (bufferShapeArg : Option (List ℕ)) :
    (constructFromSource src chunkMb chunkShapeArg bufferGb bufferShapeArg).2 =
      [ResolveCall.dtypeCall, ResolveCall.maxshapeCall] ∧
    (∀ (k : ℕ) (it : IterState),
      (runIter k it).2.maxshape = it.maxshape ∧ (runIter k it).2.dtype = it.dtype ∧
      (runIter k it).2.chunkShape = it.chunkShape ∧
      (runIter k it).2.bufferShape = it.bufferShape) :=
  ⟨rfl, fun k => runIter_fields k⟩

/-- C10: a `get_movie_frame` call that returns normally restores the
`current_frame` cursor to its value before the call, and when the decoder
position agreed with `current_frame` before the call (as sequential
iteration maintains), the decoder position is restored too, so interleaved
random-access frame reads do not move the sequential iteration position. -/
theorem claim_c10_current_frame_restored (n : ℕ) (st : VideoCaptureContext)
    (out : Option ℕ × VideoCaptureContext)
    (h : getMovieFrame n st = .ok out) :
    out.2.currentFrame = st.currentFrame ∧
    (st.pos = st.currentFrame → out.2.pos = st.pos) := by
  obtain ⟨op, pos, frames, cur, cache⟩ := st
  cases op with
  | false => simp [getMovieFrame] at h
  | true =>
    cases cache with
    | none =>
      by_cases hcnt : frames.length ≤ n
      · rw [getMovieFrame] at h
        simp [getFrameCount, hcnt] at h
      · have hn : n < frames.length := by omega
        rw [getMovieFrame] at h
        simp [getFrameCount, setCurrentFrame, vcRead, hcnt, hn] at h
        subst h
        exact ⟨rfl, fun hp => hp.symm⟩
    | some v =>
      by_cases hcnt : v ≤ n
      · rw [getMovieFrame] at h
        simp [getFrameCount, hcnt] at h
      · by_cases hn : n < frames.length
        · rw [getMovieFrame] at h
          simp [getFrameCount, setCurrentFrame, vcRead, hcnt, hn] at h
          subst h
          exact ⟨rfl, fun hp => hp.symm⟩
        · rw [getMovieFrame] at h
          simp [getFrameCount, setCurrentFrame, vcRead, hcnt, hn] at h
          subst h
          exact ⟨rfl, fun hp => hp.symm⟩

theorem claim_c10_current_frame_restored_witness :
    ((some 8, (⟨true, 0, [7, 8, 9], 0, some 3⟩ : VideoCaptureContext)) :
        Option ℕ × VideoCaptureContext).2.currentFrame =
      (⟨true, 0, [7, 8, 9], 0, none⟩ : VideoCaptureContext).currentFrame ∧
    ((⟨true, 0, [7, 8, 9], 0, none⟩ : VideoCaptureContext).pos =
        (⟨true, 0, [7, 8, 9], 0, none⟩ : VideoCaptureContext).currentFrame →
      ((some 8, (⟨true, 0, [7, 8, 9], 0, some 3⟩ : VideoCaptureContext)) :
          Option ℕ × VideoCaptureContext).2.pos =
        (⟨true, 0, [7, 8, 9], 0, none⟩ : VideoCaptureContext).pos) :=
  claim_c10_current_frame_restored 1 ⟨true, 0, [7, 8, 9], 0, none⟩
    (some 8, ⟨true, 0, [7, 8, 9], 0, some 3⟩) rfl

end NwbChunk
